import Mathlib

/-!
Verification of the `sync` package's generalized Once primitive.

The Go sources contain two variants:
* a configurable `Once` (lazyDone / suppressPanic / verify policy, with
  `Do`, `Done`, `Reset`, `Close`), embedded below in namespace `Sync`;
* a simplified `once` (no policy, actions without results, no reset),
  embedded in namespace `Sync.Simple`.

Actions are modelled by their observable behaviour on one invocation:
an action of the configurable variant either returns a boolean
(`some b`) or panics (`Option.none`); an action of the simplified
variant either returns (`false`) or panics (`true`).  `Do` is embedded
as a pure state transformer; the value `Option.none` of the returned
`ret` field marks a panic escaping to the caller (suppressPanic off).
-/

namespace Sync

/-- Behaviour of one invocation of a `FuncType` action:
`some b` means the action returns `b`, `Option.none` means it panics. -/
abbrev ActRes := Option Bool

/-- The four verification policies of the Go `VerifyType` constants. -/
inductive VerifyType where
  | VerifyNone
  | VerifyAll
  | VerifyFirstRunAll
  | VerifyFirstExit
deriving DecidableEq, Repr

/-- Outcome of running the policy loop of `Once.Do` over the action list:
`invoked` is the number of actions actually invoked (always an initial
segment of the list, invoked in list order), `res` is the value held by
`Do`'s named return variable `res` when the loop exits (normally or by
panic), `panicked` records whether an invoked action panicked. -/
structure RunOut where
  invoked : Nat
  res : Bool
  panicked : Bool
deriving DecidableEq, Repr

/-- The `VerifyAll` loop: `tempRes = true; for f { tempRes = tempRes && f() }; res = tempRes`.
Go's `&&` short-circuits, so once `tempRes` is `false` no further action is
invoked.  On a panic the named return `res` still holds its zero value `false`
(it is only assigned after the loop). -/
def runAll : Bool → List ActRes → RunOut
  | tempRes, [] => ⟨0, tempRes, false⟩
  | false, _f :: fs =>
      let o := runAll false fs
      ⟨o.invoked, o.res, o.panicked⟩
  | true, Option.none :: _ => ⟨1, false, true⟩
  | true, Option.some b :: fs =>
      let o := runAll (true && b) fs
      ⟨o.invoked + 1, o.res, o.panicked⟩

/-- The `VerifyFirstRunAll` loop: `for f { res = f() || res }`.  Every action
is invoked (until a panic); on a panic `res` keeps the value accumulated so
far. -/
def runFirstRunAll : Bool → List ActRes → RunOut
  | res, [] => ⟨0, res, false⟩
  | res, Option.none :: _ => ⟨1, res, true⟩
  | res, Option.some b :: fs =>
      let o := runFirstRunAll (b || res) fs
      ⟨o.invoked + 1, o.res, o.panicked⟩

/-- The `VerifyFirstExit` loop: `for f { if f() { res = true; break } }`.
Stops at the first action returning `true`; `res` is `false` while no action
has returned `true`, in particular at a panic. -/
def runFirstExit : List ActRes → RunOut
  | [] => ⟨0, false, false⟩
  | Option.none :: _ => ⟨1, false, true⟩
  | Option.some true :: _ => ⟨1, true, false⟩
  | Option.some false :: fs =>
      let o := runFirstExit fs
      ⟨o.invoked + 1, o.res, o.panicked⟩

/-- The `VerifyNone` (default) branch: `res = true; for f { f() }`.
`res` is set to `true` before any action is invoked, so it is `true` even at
a panic. -/
def runNone : List ActRes → RunOut
  | [] => ⟨0, true, false⟩
  | Option.none :: _ => ⟨1, true, true⟩
  | Option.some _ :: fs =>
      let o := runNone fs
      ⟨o.invoked + 1, o.res, o.panicked⟩

/-- Dispatch of `Once.Do`'s `if d.verify == ...` chain over the policies. -/
def runVerify : VerifyType → List ActRes → RunOut
  | .VerifyAll, fs => runAll true fs
  | .VerifyFirstRunAll, fs => runFirstRunAll false fs
  | .VerifyFirstExit, fs => runFirstExit fs
  | .VerifyNone, fs => runNone fs

/-- The configurable `Once` struct: configuration fields (`fs`, `lazyDone`,
`suppressPanic`, `verify`) plus the two atomically observed state flags
`done` and `unblock`.  The mutex and condition variable carry no sequential
state beyond these flags. -/
structure Once where
  fs : List ActRes
  lazyDone : Bool
  suppressPanic : Bool
  verify : VerifyType
  done : Bool
  unblock : Bool
deriving DecidableEq, Repr

/-- `NewOnce`: rejects `lazyDone == false && verify != VerifyNone`, otherwise
returns a fresh object with `f` prepended to `fs` and cleared flags. -/
def NewOnce (lazyDone suppressPanic : Bool) (verify : VerifyType)
    (f : ActRes) (fs : List ActRes) : Except String Once :=
  if lazyDone = false ∧ verify ≠ VerifyType.VerifyNone then
    Except.error "lazyDone needs to true when using verify"
  else
    Except.ok
      { fs := f :: fs
        lazyDone := lazyDone
        suppressPanic := suppressPanic
        verify := verify
        done := false
        unblock := false }

/-- `NewDefaultOnce`: `NewOnce(false, false, VerifyNone, f, fs...)`. -/
def NewDefaultOnce (f : ActRes) (fs : List ActRes) : Except String Once :=
  NewOnce false false VerifyType.VerifyNone f fs

/-- Observable outcome of one `Do` call: `ret` is what the caller sees
(`Option.none` when a panic escapes because `suppressPanic` is off),
`invoked` the number of actions invoked by this call, `panicked` whether an
action panicked, `after` the Once object afterwards. -/
structure DoOut where
  ret : Option Bool
  invoked : Nat
  panicked : Bool
  after : Once
deriving DecidableEq, Repr

/-- `Once.Do`, sequentially: fast path on `done`; otherwise (the under-lock
re-check reads the same `done` value) store `done` first when eager
(`lazyDone == false`), run the policy loop, and when lazy store `done` only
on a normal exit with `res == true` (the store is skipped when the loop
panicked, because the panic unwinds past it). -/
def Once.Do (d : Once) : DoOut :=
  if d.done then
    ⟨Option.some false, 0, false, d⟩
  else
    let done1 := if d.lazyDone = false then true else d.done
    let o := runVerify d.verify d.fs
    if o.panicked then
      { ret := if d.suppressPanic then Option.some o.res else Option.none
        invoked := o.invoked
        panicked := true
        after := { d with done := done1 } }
    else
      { ret := Option.some o.res
        invoked := o.invoked
        panicked := false
        after := { d with done := done1 || (d.lazyDone && o.res) } }

/-- `Once.Done` returns the current value of `done` (for both the blocking
and the non-blocking form; whether the blocking form would block at all is
`Once.blocksOnDone`). -/
def Once.Done (d : Once) (_block : Bool) : Bool := d.done

/-- `Once.Done(true)` suspends (with nothing else running it never returns)
exactly when neither `unblock` nor `done` is set. -/
def Once.blocksOnDone (d : Once) (block : Bool) : Bool :=
  block && (!d.unblock && !d.done)

/-- `Once.Reset`: clears `unblock` and `done`, returns whether `done` was
set. -/
def Once.Reset (d : Once) : Bool × Once :=
  (d.done, { d with done := false, unblock := false })

/-- `Once.Close`: sets `unblock` (and broadcasts; `done` untouched). -/
def Once.Close (d : Once) : Once :=
  { d with unblock := true }

namespace Simple

/-- Behaviour of one invocation of a simplified-variant action (`func()`,
no result): `true` means the action panics, `false` that it returns. -/
abbrev ActPan := Bool

/-- The simplified `once` struct of `once.go`: no policy, no lazy/eager
choice, no reset. -/
structure Once where
  fs : List ActPan
  suppressPanic : Bool
  done : Bool
  unblock : Bool
deriving DecidableEq, Repr

/-- The simplified variant's `NewOnce(suppressPanic, f, fs...)`. -/
def NewOnce (suppressPanic : Bool) (f : ActPan) (fs : List ActPan) : Once :=
  { fs := f :: fs
    suppressPanic := suppressPanic
    done := false
    unblock := false }

/-- The simplified `Do`'s action loop `for f { f() }`: number of actions
invoked and whether one of them panicked. -/
def runFs : List ActPan → Nat × Bool
  | [] => (0, false)
  | true :: _ => (1, true)
  | false :: fs =>
      let o := runFs fs
      (o.1 + 1, o.2)

/-- Observable outcome of one simplified `Do` call (same reading as
`Sync.DoOut`). -/
structure DoOut where
  ret : Option Bool
  invoked : Nat
  panicked : Bool
  after : Once
deriving DecidableEq, Repr

/-- The simplified `once.Do`: fast path on `done`; otherwise the deferred
`atomic.StoreUint32(&d.done, 1)` runs on every exit path — panic included —
and the named return `ret` was set `true` before the loop, so a contained
panic still yields `true`. -/
def Once.Do (d : Once) : DoOut :=
  if d.done then
    ⟨Option.some false, 0, false, d⟩
  else
    let o := runFs d.fs
    { ret := if o.2 then (if d.suppressPanic then Option.some true else Option.none)
             else Option.some true
      invoked := o.1
      panicked := o.2
      after := { d with done := true } }

/-- The simplified `once.Done`: returns the current `done` value. -/
def Once.Done (d : Once) (_block : Bool) : Bool := d.done

/-- Whether the simplified `Done(true)` would suspend: same wait loop as the
configurable variant. -/
def Once.blocksOnDone (d : Once) (block : Bool) : Bool :=
  block && (!d.unblock && !d.done)

/-- The simplified `once.Close`: sets `unblock`. -/
def Once.Close (d : Once) : Once :=
  { d with unblock := true }

end Simple

/-- An operation of the common external interface of the two variants
(`Reset` is deliberately absent: the simplified variant has none, and the
claims about `Reset`-free call sequences use this type). -/
inductive Op where
  | opDo
  | opDone (block : Bool)
  | opClose
deriving DecidableEq, Repr

/-- Observable result of one operation: for `Do` the returned value
(`Option.none` = panic escaped) and the number of actions invoked; for
`Done` the returned value (`Option.none` = the call blocks forever in a
quiescent sequential run); `Close` returns nothing. -/
inductive OpOut where
  | fromDo (ret : Option Bool) (invoked : Nat)
  | fromDone (ret : Option Bool)
  | fromClose
deriving DecidableEq, Repr

/-- One operation on the configurable variant. -/
def stepC (d : Once) : Op → OpOut × Once
  | .opDo =>
      let o := d.Do
      (.fromDo o.ret o.invoked, o.after)
  | .opDone b =>
      (.fromDone (if d.blocksOnDone b then Option.none else Option.some (d.Done b)), d)
  | .opClose => (.fromClose, d.Close)

/-- A sequence of operations on the configurable variant: the list of
observable results and the final state. -/
def runC (d : Once) : List Op → List OpOut × Once
  | [] => ([], d)
  | op :: ops =>
      let s := stepC d op
      let r := runC s.2 ops
      (s.1 :: r.1, r.2)

/-- One operation on the simplified variant. -/
def stepS (d : Simple.Once) : Op → OpOut × Simple.Once
  | .opDo =>
      let o := d.Do
      (.fromDo o.ret o.invoked, o.after)
  | .opDone b =>
      (.fromDone (if d.blocksOnDone b then Option.none else Option.some (d.Done b)), d)
  | .opClose => (.fromClose, d.Close)

/-- A sequence of operations on the simplified variant. -/
def runS (d : Simple.Once) : List Op → List OpOut × Simple.Once
  | [] => ([], d)
  | op :: ops =>
      let s := stepS d op
      let r := runS s.2 ops
      (s.1 :: r.1, r.2)

/-!
Fine-grained interleaving model of N goroutines racing through `Once.Do`
on a fresh object with `VerifyNone` (the policy loop then returns `true`
and, with non-panicking actions, runs the whole list).  The program points
of one caller are: the atomic fast-path load of `done`; acquiring the mutex
together with the under-lock re-check of `done` (sound to merge: `done` is
written only with the mutex held, so it cannot change between the acquire
and the re-check); and the critical section proper (run the action list,
under eager timing `done` was already stored at entry).
-/

/-- Program counter of one goroutine inside `Do`:
`start` = before the fast-path load; `waiting` = passed the fast path,
contending for the mutex; `running` = holds the mutex, re-check saw
`done == 0`, executing the action list; `finished res` = returned `res`. -/
inductive TPC where
  | start
  | waiting
  | running
  | finished (res : Bool)
deriving DecidableEq, Repr

/-- Shared state of the race: the `done` flag, whether the mutex is held,
each goroutine's program counter, and how many times the action list has
been executed. -/
structure RaceState (n : Nat) where
  done : Bool
  lock : Bool
  pcs : Fin n → TPC
  runs : Nat

/-- A freshly constructed object with all callers at `start`. -/
def initRace (n : Nat) : RaceState n :=
  { done := false, lock := false, pcs := fun _ => TPC.start, runs := 0 }

/-- One interleaving step, scheduler picking goroutine `i`; `lz` is the
`lazyDone` configuration (`VerifyNone` policy in both cases, actions assumed
to return normally, so the critical section returns `true`). -/
inductive RaceStep (lz : Bool) {n : Nat} : RaceState n → RaceState n → Prop where
  | fastDone (s : RaceState n) (i : Fin n)
      (hpc : s.pcs i = TPC.start) (hd : s.done = true) :
      RaceStep lz s { s with pcs := Function.update s.pcs i (TPC.finished false) }
  | fastPass (s : RaceState n) (i : Fin n)
      (hpc : s.pcs i = TPC.start) (hd : s.done = false) :
      RaceStep lz s { s with pcs := Function.update s.pcs i TPC.waiting }
  | lockDone (s : RaceState n) (i : Fin n)
      (hpc : s.pcs i = TPC.waiting) (hl : s.lock = false) (hd : s.done = true) :
      RaceStep lz s { s with pcs := Function.update s.pcs i (TPC.finished false) }
  | lockRun (s : RaceState n) (i : Fin n)
      (hpc : s.pcs i = TPC.waiting) (hl : s.lock = false) (hd : s.done = false) :
      RaceStep lz s { s with lock := true,
                             done := if lz then s.done else true,
                             pcs := Function.update s.pcs i TPC.running }
  | runExit (s : RaceState n) (i : Fin n)
      (hpc : s.pcs i = TPC.running) :
      RaceStep lz s { s with lock := false,
                             done := if lz then true else s.done,
                             pcs := Function.update s.pcs i (TPC.finished true),
                             runs := s.runs + 1 }

/-- States reachable from the fresh object by interleaved steps. -/
def RaceReach (lz : Bool) (n : Nat) (s : RaceState n) : Prop :=
  Relation.ReflTransGen (RaceStep lz) (initRace n) s

/-- Number of goroutines that have returned `true`. -/
def winners {n : Nat} (pcs : Fin n → TPC) : Nat :=
  Finset.univ.sum fun i => if pcs i = TPC.finished true then 1 else 0

/-! ### Lemmas about the policy loops -/

/-- Once `tempRes` is `false`, the `VerifyAll` loop invokes nothing more and
exits with `false`. -/
lemma runAll_false (l : List ActRes) : runAll false l = ⟨0, false, false⟩ := by
  induction l with
  | nil => rfl
  | cons f fs ih => simp [runAll, ih]

/-- Behaviour of the `VerifyAll` loop on a list of non-panicking actions:
no panic, result is the conjunction of all outcomes, the invoked actions
are an initial segment whose non-final elements all returned `true`, which
ends right after the first `false` (if any), and the result is `true`
exactly when no invoked action returned `false`. -/
lemma runAll_map_some_spec (bs : List Bool) :
    (runAll true (bs.map Option.some)).panicked = false ∧
    (runAll true (bs.map Option.some)).res = bs.all id ∧
    (runAll true (bs.map Option.some)).invoked ≤ bs.length ∧
    (∀ i, i + 1 < (runAll true (bs.map Option.some)).invoked →
      bs.get? i = Option.some true) ∧
    ((runAll true (bs.map Option.some)).invoked < bs.length →
      bs.get? ((runAll true (bs.map Option.some)).invoked - 1) = Option.some false) ∧
    ((runAll true (bs.map Option.some)).res = true ↔
      ∀ i, i < (runAll true (bs.map Option.some)).invoked → bs.get? i = Option.some true) := by
  induction bs with
  | nil => simp [runAll]
  | cons b t ih =>
    obtain ⟨ihp, ihr, ihlen, ihpre, ihstop, ihiff⟩ := ih
    cases b with
    | false =>
      have hI : (runAll true ((false :: t).map Option.some)).invoked = 1 := by
        simp [runAll, runAll_false]
      have hR : (runAll true ((false :: t).map Option.some)).res = false := by
        simp [runAll, runAll_false]
      have hP : (runAll true ((false :: t).map Option.some)).panicked = false := by
        simp [runAll, runAll_false]
      refine ⟨hP, by rw [hR]; simp, by simp only [hI, List.length_cons]; omega, ?_, ?_, ?_⟩
      · intro i hi
        rw [hI] at hi
        omega
      · intro _
        rw [hI]
        rfl
      · rw [hR, hI]
        constructor
        · intro h; exact absurd h (by simp)
        · intro h
          have h0 := h 0 (by omega)
          simp at h0
    | true =>
      have hI : (runAll true ((true :: t).map Option.some)).invoked =
          (runAll true (t.map Option.some)).invoked + 1 := by
        simp [runAll]
      have hR : (runAll true ((true :: t).map Option.some)).res =
          (runAll true (t.map Option.some)).res := by
        simp [runAll]
      have hP : (runAll true ((true :: t).map Option.some)).panicked =
          (runAll true (t.map Option.some)).panicked := by
        simp [runAll]
      refine ⟨by rw [hP]; exact ihp, by rw [hR]; simpa using ihr,
        by simp only [hI, List.length_cons]; omega, ?_, ?_, ?_⟩
      · intro i hi
        rw [hI] at hi
        cases i with
        | zero => rfl
        | succ j =>
          have := ihpre j (by omega)
          simpa using this
      · intro hlt
        rw [hI] at hlt ⊢
        simp only [List.length_cons] at hlt
        have hpos : 1 ≤ (runAll true (t.map Option.some)).invoked := by
          cases t with
          | nil => simp [runAll] at hlt
          | cons c u =>
            cases c <;> simp [runAll, runAll_false]
        obtain ⟨k, hk⟩ : ∃ k, (runAll true (t.map Option.some)).invoked = k + 1 :=
          ⟨(runAll true (t.map Option.some)).invoked - 1, by omega⟩
        have h5 : t.get? k = Option.some false := by
          have := ihstop (by omega)
          simpa [hk] using this
        simp only [Nat.add_sub_cancel, hk]
        simpa using h5
      · rw [hR, hI]
        constructor
        · intro hres i hi
          cases i with
          | zero => rfl
          | succ j =>
            have := ihiff.mp hres j (by omega)
            simpa using this
        · intro h
          apply ihiff.mpr
          intro i hi
          have := h (i + 1) (by omega)
          simpa using this

/-- On a panic the `VerifyAll` loop stops at the panicking action (the last
invoked one) and `res` still holds `false`. -/
lemma runAll_panicked (l : List ActRes) (h : (runAll true l).panicked = true) :
    1 ≤ (runAll true l).invoked ∧ (runAll true l).invoked ≤ l.length ∧
    l.get? ((runAll true l).invoked - 1) = Option.some Option.none ∧
    (runAll true l).res = false := by
  induction l with
  | nil => simp [runAll] at h
  | cons f t ih =>
    cases f with
    | none => simp [runAll]
    | some b =>
      cases b with
      | false => simp [runAll, runAll_false] at h
      | true =>
        simp only [runAll, Bool.and_true] at h ⊢
        obtain ⟨h1, h2, h3, h4⟩ := ih h
        obtain ⟨k, hk⟩ : ∃ k, (runAll true t).invoked = k + 1 :=
          ⟨(runAll true t).invoked - 1, by omega⟩
        have h3' : t.get? k = Option.some Option.none := by simpa [hk] using h3
        refine ⟨by omega, by simp only [List.length_cons]; omega, ?_, h4⟩
        simp only [Nat.add_sub_cancel, hk]
        simpa using h3'

/-- The `VerifyNone` branch's `res` is `true` on every exit path. -/
lemma runNone_res (l : List ActRes) : (runNone l).res = true := by
  induction l with
  | nil => rfl
  | cons f t ih => cases f <;> simp [runNone, ih]

/-- Without a panic the `VerifyNone` branch invokes every action. -/
lemma runNone_nopanic_invoked (l : List ActRes) (h : (runNone l).panicked = false) :
    (runNone l).invoked = l.length := by
  induction l with
  | nil => rfl
  | cons f t ih =>
    cases f with
    | none => simp [runNone] at h
    | some b =>
      simp only [runNone] at h ⊢
      simp [ih h]

/-- On a panic the `VerifyNone` branch stops at the panicking action. -/
lemma runNone_panicked (l : List ActRes) (h : (runNone l).panicked = true) :
    1 ≤ (runNone l).invoked ∧ (runNone l).invoked ≤ l.length ∧
    l.get? ((runNone l).invoked - 1) = Option.some Option.none := by
  induction l with
  | nil => simp [runNone] at h
  | cons f t ih =>
    cases f with
    | none => simp [runNone]
    | some b =>
      simp only [runNone] at h ⊢
      obtain ⟨h1, h2, h3⟩ := ih h
      obtain ⟨k, hk⟩ : ∃ k, (runNone t).invoked = k + 1 := ⟨(runNone t).invoked - 1, by omega⟩
      have h3' : t.get? k = Option.some Option.none := by simpa [hk] using h3
      refine ⟨by omega, by simp only [List.length_cons]; omega, ?_⟩
      simp only [Nat.add_sub_cancel, hk]
      simpa using h3'

/-- On a panic the `VerifyFirstRunAll` loop stops at the panicking action. -/
lemma runFirstRunAll_panicked (acc : Bool) (l : List ActRes)
    (h : (runFirstRunAll acc l).panicked = true) :
    1 ≤ (runFirstRunAll acc l).invoked ∧
    (runFirstRunAll acc l).invoked ≤ l.length ∧
    l.get? ((runFirstRunAll acc l).invoked - 1) = Option.some Option.none := by
  induction l generalizing acc with
  | nil => simp [runFirstRunAll] at h
  | cons f t ih =>
    cases f with
    | none => simp [runFirstRunAll]
    | some b =>
      simp only [runFirstRunAll] at h ⊢
      obtain ⟨h1, h2, h3⟩ := ih (b || acc) h
      obtain ⟨k, hk⟩ : ∃ k, (runFirstRunAll (b || acc) t).invoked = k + 1 :=
        ⟨(runFirstRunAll (b || acc) t).invoked - 1, by omega⟩
      have h3' : t.get? k = Option.some Option.none := by simpa [hk] using h3
      refine ⟨by omega, by simp only [List.length_cons]; omega, ?_⟩
      simp only [Nat.add_sub_cancel, hk]
      simpa using h3'

/-- On a panic the `VerifyFirstExit` loop stops at the panicking action and
`res` still holds `false` (a `true` outcome would have exited the loop
first). -/
lemma runFirstExit_panicked (l : List ActRes) (h : (runFirstExit l).panicked = true) :
    1 ≤ (runFirstExit l).invoked ∧ (runFirstExit l).invoked ≤ l.length ∧
    l.get? ((runFirstExit l).invoked - 1) = Option.some Option.none ∧
    (runFirstExit l).res = false := by
  induction l with
  | nil => simp [runFirstExit] at h
  | cons f t ih =>
    cases f with
    | none => simp [runFirstExit]
    | some b =>
      cases b with
      | true => simp [runFirstExit] at h
      | false =>
        simp only [runFirstExit] at h ⊢
        obtain ⟨h1, h2, h3, h4⟩ := ih h
        obtain ⟨k, hk⟩ : ∃ k, (runFirstExit t).invoked = k + 1 :=
          ⟨(runFirstExit t).invoked - 1, by omega⟩
        have h3' : t.get? k = Option.some Option.none := by simpa [hk] using h3
        refine ⟨by omega, by simp only [List.length_cons]; omega, ?_, h4⟩
        simp only [Nat.add_sub_cancel, hk]
        simpa using h3'

/-- All four policy loops stop at the action that panicked: it is the last
invoked one, and the invoked actions are an initial segment of the list. -/
lemma runVerify_panicked (v : VerifyType) (l : List ActRes)
    (h : (runVerify v l).panicked = true) :
    1 ≤ (runVerify v l).invoked ∧ (runVerify v l).invoked ≤ l.length ∧
    l.get? ((runVerify v l).invoked - 1) = Option.some Option.none := by
  cases v with
  | VerifyNone => exact runNone_panicked l h
  | VerifyAll =>
    obtain ⟨h1, h2, h3, _⟩ := runAll_panicked l h
    exact ⟨h1, h2, h3⟩
  | VerifyFirstRunAll => exact runFirstRunAll_panicked false l h
  | VerifyFirstExit =>
    obtain ⟨h1, h2, h3, _⟩ := runFirstExit_panicked l h
    exact ⟨h1, h2, h3⟩

/-- Under `VerifyAll` and `VerifyFirstExit` the result variable is still
`false` when a panic unwinds the loop. -/
lemma runVerify_panicked_res (v : VerifyType) (l : List ActRes)
    (hv : v = VerifyType.VerifyAll ∨ v = VerifyType.VerifyFirstExit)
    (h : (runVerify v l).panicked = true) :
    (runVerify v l).res = false := by
  cases hv with
  | inl hv => subst hv; exact (runAll_panicked l h).2.2.2
  | inr hv => subst hv; exact (runFirstExit_panicked l h).2.2.2

/-- Every policy loop invokes the first action of a non-empty list. -/
lemma runVerify_invoked_pos (v : VerifyType) (f : ActRes) (fs : List ActRes) :
    1 ≤ (runVerify v (f :: fs)).invoked := by
  cases v with
  | VerifyNone => cases f <;> simp [runVerify, runNone]
  | VerifyAll =>
    cases f with
    | none => simp [runVerify, runAll]
    | some b => cases b <;> simp [runVerify, runAll, runAll_false]
  | VerifyFirstRunAll => cases f <;> simp [runVerify, runFirstRunAll]
  | VerifyFirstExit =>
    cases f with
    | none => simp [runVerify, runFirstExit]
    | some b => cases b <;> simp [runVerify, runFirstExit]

/-- With the accumulator already `true`, `VerifyFirstRunAll`'s `res` stays
`true` for good (`res = f() || res`). -/
lemma runFirstRunAll_res_true (l : List ActRes) : (runFirstRunAll true l).res = true := by
  induction l with
  | nil => rfl
  | cons f t ih =>
    cases f with
    | none => rfl
    | some b => simpa [runFirstRunAll] using ih

/-- A panicking action anywhere in the list makes `VerifyFirstRunAll`
panic (it never skips an action). -/
lemma runFirstRunAll_panicked_of_mem (acc : Bool) (l : List ActRes)
    (h : Option.none ∈ l) : (runFirstRunAll acc l).panicked = true := by
  induction l generalizing acc with
  | nil => cases h
  | cons f t ih =>
    cases f with
    | none => rfl
    | some b =>
      have ht : Option.none ∈ t := by
        cases h with
        | tail _ h => exact h
      simpa [runFirstRunAll] using ih (b || acc) ht

/-- If an action returning `true` occurs among the (panic-free) actions
`xs`, then after traversing `xs` the `VerifyFirstRunAll` result variable is
`true`, whatever follows. -/
lemma runFirstRunAll_res_true_of_prefix (xs rest : List ActRes) (acc : Bool)
    (hx : Option.none ∉ xs) (ht : Option.some true ∈ xs) :
    (runFirstRunAll acc (xs ++ rest)).res = true := by
  induction xs generalizing acc with
  | nil => cases ht
  | cons f t ih =>
    cases f with
    | none => exact absurd (List.mem_cons_self _ _) hx
    | some b =>
      cases b with
      | true =>
        simpa [runFirstRunAll] using runFirstRunAll_res_true (t ++ rest)
      | false =>
        have ht' : Option.some true ∈ t := by
          cases ht with
          | tail _ h => exact h
        have hx' : Option.none ∉ t := fun hmem => hx (List.mem_cons_of_mem _ hmem)
        simpa [runFirstRunAll] using ih (false || acc) hx' ht'

/-! ### Claim theorems: sequential behaviour of `Once.Do` -/

/-- C1: under LAZY timing with the ALL verification policy, `Do` runs the
actions in list order (the invoked actions are an initial segment), stops
invoking further actions as soon as one returns `false` (all invoked
actions except possibly the last returned `true`, and when the loop stopped
early the last invoked one returned `false` — in particular for
`[f1 -> false, f2]` only `f1` is invoked, and for `[f1 -> true, f2 -> false]`
both are invoked with result `false`), and `Do`'s result is `true` iff no
invoked action returned `false`. -/
theorem c1_all_short_circuit (bs : List Bool) (sp u : Bool) :
    (Once.Do ⟨bs.map Option.some, true, sp, VerifyType.VerifyAll, false, u⟩).ret
        = Option.some (bs.all id) ∧
    (Once.Do ⟨bs.map Option.some, true, sp, VerifyType.VerifyAll, false, u⟩).invoked
        ≤ bs.length ∧
    (∀ i, i + 1 < (Once.Do ⟨bs.map Option.some, true, sp, VerifyType.VerifyAll, false, u⟩).invoked →
      bs.get? i = Option.some true) ∧
    ((Once.Do ⟨bs.map Option.some, true, sp, VerifyType.VerifyAll, false, u⟩).invoked < bs.length →
      bs.get? ((Once.Do ⟨bs.map Option.some, true, sp, VerifyType.VerifyAll, false, u⟩).invoked - 1)
        = Option.some false) ∧
    ((Once.Do ⟨bs.map Option.some, true, sp, VerifyType.VerifyAll, false, u⟩).ret = Option.some true ↔
      ∀ i, i < (Once.Do ⟨bs.map Option.some, true, sp, VerifyType.VerifyAll, false, u⟩).invoked →
        bs.get? i = Option.some true) ∧
    (∀ a : ActRes,
      (Once.Do ⟨[Option.some false, a], true, sp, VerifyType.VerifyAll, false, u⟩).invoked = 1) ∧
    (Once.Do ⟨[Option.some true, Option.some false], true, sp,
        VerifyType.VerifyAll, false, u⟩).ret = Option.some false := by
  obtain ⟨hp, hr, hlen, hpre, hstop, hiff⟩ := runAll_map_some_spec bs
  have hret : (Once.Do ⟨bs.map Option.some, true, sp, VerifyType.VerifyAll, false, u⟩).ret
      = Option.some (runAll true (bs.map Option.some)).res := by
    simp [Once.Do, runVerify, hp]
  have hinv : (Once.Do ⟨bs.map Option.some, true, sp, VerifyType.VerifyAll, false, u⟩).invoked
      = (runAll true (bs.map Option.some)).invoked := by
    simp [Once.Do, runVerify, hp]
  refine ⟨by rw [hret, hr], by rw [hinv]; exact hlen, ?_, ?_, ?_, ?_, ?_⟩
  · intro i hi
    rw [hinv] at hi
    exact hpre i hi
  · intro hlt
    rw [hinv] at hlt ⊢
    exact hstop hlt
  · rw [hret, hinv]
    constructor
    · intro h
      exact hiff.mp (by simpa using h)
    · intro h
      simpa using hiff.mpr h
  · intro a
    have hpa : (runAll true [Option.some false, a]).panicked = false := by
      simp [runAll, runAll_false]
    have h1 : (runAll true [Option.some false, a]).invoked = 1 := by
      simp [runAll, runAll_false]
    simp [Once.Do, runVerify, hpa, h1]
  · have : (runAll true [Option.some true, Option.some false]) = ⟨2, false, false⟩ := by
      simp [runAll, runAll_false]
    simp [Once.Do, runVerify, this]

/-- C2 counterexample: with containment enabled (`suppressPanic = true`),
LAZY timing and the `VerifyNone` policy, a single panicking action makes
`Do` report `true`, not `false` — the claim predicts a `false` report for
every configuration. -/
theorem c2_counterexample :
    (Once.Do ⟨[Option.none], true, true, VerifyType.VerifyNone, false, false⟩).panicked = true ∧
    (Once.Do ⟨[Option.none], true, true, VerifyType.VerifyNone, false, false⟩).ret
      = Option.some true := by
  decide

/-- C2 amended: with containment enabled, a panic raised by an invoked
action never propagates out of `Do` (the result is always a boolean), and
the actions after the panicking one — the last invoked one — are not
invoked; `Do` reports the policy-loop result variable as it stood when the
panic unwound, which is `false` under `VerifyAll` and `VerifyFirstExit`
(but may be `true` under `VerifyNone` and `VerifyFirstRunAll`). -/
theorem c2_panic_containment (d : Once) (hs : d.suppressPanic = true) :
    d.Do.ret ≠ Option.none ∧
    (d.Do.panicked = true →
      1 ≤ d.Do.invoked ∧ d.Do.invoked ≤ d.fs.length ∧
      d.fs.get? (d.Do.invoked - 1) = Option.some Option.none ∧
      d.Do.ret = Option.some (runVerify d.verify d.fs).res ∧
      ((d.verify = VerifyType.VerifyAll ∨ d.verify = VerifyType.VerifyFirstExit) →
        d.Do.ret = Option.some false)) := by
  cases hdone : d.done with
  | true =>
    constructor
    · simp [Once.Do, hdone]
    · intro hp
      simp [Once.Do, hdone] at hp
  | false =>
    cases hpan : (runVerify d.verify d.fs).panicked with
    | false =>
      constructor
      · simp [Once.Do, hdone, hpan]
      · intro hp
        simp [Once.Do, hdone, hpan] at hp
    | true =>
      obtain ⟨h1, h2, h3⟩ := runVerify_panicked d.verify d.fs hpan
      have hret : d.Do.ret = Option.some (runVerify d.verify d.fs).res := by
        simp [Once.Do, hdone, hpan, hs]
      have hinv : d.Do.invoked = (runVerify d.verify d.fs).invoked := by
        simp [Once.Do, hdone, hpan]
      refine ⟨by rw [hret]; simp, fun _ => ⟨by rw [hinv]; exact h1, by rw [hinv]; exact h2,
        by rw [hinv]; exact h3, hret, ?_⟩⟩
      intro hv
      rw [hret, runVerify_panicked_res d.verify d.fs hv hpan]

/-- Witness for C2 (amended): the containment hypothesis is satisfiable and
the conclusion holds at a concrete panicking configuration. -/
theorem c2_panic_containment_witness :
    (⟨[Option.none], true, true, VerifyType.VerifyNone, false, false⟩ : Once).suppressPanic = true ∧
    (Once.Do ⟨[Option.none], true, true, VerifyType.VerifyNone, false, false⟩).ret
      ≠ Option.none :=
  ⟨by decide,
    (c2_panic_containment ⟨[Option.none], true, true, VerifyType.VerifyNone, false, false⟩
      (by decide)).1⟩

/-- C4: under LAZY timing a `Do` call that reaches the action list marks
`done` exactly when the policy loop exits normally with result `true`; on a
`false` (or aborted) result the object is left exactly as it was, so the
next `Do` call runs the whole action list again, starting with the first
action (at least one action is invoked on every such call). -/
theorem c4_lazy_done_retry (f : ActRes) (fs : List ActRes) (sp u : Bool) (v : VerifyType) :
    (Once.Do ⟨f :: fs, true, sp, v, false, u⟩).after.done
      = (!(runVerify v (f :: fs)).panicked && (runVerify v (f :: fs)).res) ∧
    ((Once.Do ⟨f :: fs, true, sp, v, false, u⟩).after.done = false →
      (Once.Do ⟨f :: fs, true, sp, v, false, u⟩).after = ⟨f :: fs, true, sp, v, false, u⟩) ∧
    ((Once.Do ⟨f :: fs, true, sp, v, false, u⟩).after.done = false →
      Once.Do ((Once.Do ⟨f :: fs, true, sp, v, false, u⟩).after)
        = Once.Do ⟨f :: fs, true, sp, v, false, u⟩) ∧
    1 ≤ (Once.Do ⟨f :: fs, true, sp, v, false, u⟩).invoked := by
  cases hpan : (runVerify v (f :: fs)).panicked with
  | true =>
    have hafter : (Once.Do ⟨f :: fs, true, sp, v, false, u⟩).after
        = ⟨f :: fs, true, sp, v, false, u⟩ := by
      simp [Once.Do, hpan]
    refine ⟨by rw [hafter]; simp, fun _ => hafter, fun _ => by rw [hafter], ?_⟩
    have : (Once.Do ⟨f :: fs, true, sp, v, false, u⟩).invoked
        = (runVerify v (f :: fs)).invoked := by
      simp [Once.Do, hpan]
    rw [this]
    exact runVerify_invoked_pos v f fs
  | false =>
    have hdone : (Once.Do ⟨f :: fs, true, sp, v, false, u⟩).after.done
        = (runVerify v (f :: fs)).res := by
      simp [Once.Do, hpan]
    have hinv : (Once.Do ⟨f :: fs, true, sp, v, false, u⟩).invoked
        = (runVerify v (f :: fs)).invoked := by
      simp [Once.Do, hpan]
    have hafter : (runVerify v (f :: fs)).res = false →
        (Once.Do ⟨f :: fs, true, sp, v, false, u⟩).after
          = ⟨f :: fs, true, sp, v, false, u⟩ := by
      intro hres
      simp [Once.Do, hpan, hres]
    refine ⟨by rw [hdone]; simp, ?_, ?_, by rw [hinv]; exact runVerify_invoked_pos v f fs⟩
    · intro h
      exact hafter (by rw [← hdone]; exact h)
    · intro h
      rw [hafter (by rw [← hdone]; exact h)]

/-- Witness for C4: at `[f1 -> false]` under `VerifyAll` the failed call
leaves the object unchanged and a second call re-invokes the action. -/
theorem c4_lazy_done_retry_witness :
    ((Once.Do ⟨[Option.some false], true, false, VerifyType.VerifyAll, false, false⟩).after.done
      = false) ∧
    Once.Do ((Once.Do ⟨[Option.some false], true, false,
        VerifyType.VerifyAll, false, false⟩).after)
      = Once.Do ⟨[Option.some false], true, false, VerifyType.VerifyAll, false, false⟩ :=
  ⟨by decide,
    (c4_lazy_done_retry (Option.some false) [] false false VerifyType.VerifyAll).2.2.1
      (by decide)⟩

/-- C5: under EAGER timing (`lazyDone = false`, policy necessarily
`VerifyNone` by the construction-time check), the winning `Do` call marks
`done` before the actions run — `done` is `true` afterwards even when an
action panicked — the winner's result is `true` whenever the panic is
contained (and also on every panic-free run, which invokes every action),
and any call on the resulting object returns `false` without invoking
anything. -/
theorem c5_eager_winner (bs : List ActRes) (sp u : Bool) :
    (Once.Do ⟨bs, false, sp, VerifyType.VerifyNone, false, u⟩).after.done = true ∧
    (sp = true → (Once.Do ⟨bs, false, sp, VerifyType.VerifyNone, false, u⟩).ret
      = Option.some true) ∧
    ((Once.Do ⟨bs, false, sp, VerifyType.VerifyNone, false, u⟩).panicked = false →
      (Once.Do ⟨bs, false, sp, VerifyType.VerifyNone, false, u⟩).ret = Option.some true ∧
      (Once.Do ⟨bs, false, sp, VerifyType.VerifyNone, false, u⟩).invoked = bs.length) ∧
    Once.Do ((Once.Do ⟨bs, false, sp, VerifyType.VerifyNone, false, u⟩).after)
      = ⟨Option.some false, 0, false,
          (Once.Do ⟨bs, false, sp, VerifyType.VerifyNone, false, u⟩).after⟩ := by
  cases hpan : (runNone bs).panicked with
  | true =>
    have hafter : (Once.Do ⟨bs, false, sp, VerifyType.VerifyNone, false, u⟩).after
        = ⟨bs, false, sp, VerifyType.VerifyNone, true, u⟩ := by
      simp [Once.Do, runVerify, hpan]
    refine ⟨by rw [hafter], ?_, ?_, by rw [hafter]; simp [Once.Do]⟩
    · intro hsp
      simp [Once.Do, runVerify, hpan, hsp, runNone_res]
    · intro hq
      simp [Once.Do, runVerify, hpan] at hq
  | false =>
    have hafter : (Once.Do ⟨bs, false, sp, VerifyType.VerifyNone, false, u⟩).after
        = ⟨bs, false, sp, VerifyType.VerifyNone, true, u⟩ := by
      simp [Once.Do, runVerify, hpan]
    refine ⟨by rw [hafter], ?_, ?_, by rw [hafter]; simp [Once.Do]⟩
    · intro _
      simp [Once.Do, runVerify, hpan, runNone_res]
    · intro _
      constructor
      · simp [Once.Do, runVerify, hpan, runNone_res]
      · simp [Once.Do, runVerify, hpan, runNone_nopanic_invoked bs hpan]

/-- Witness for C5: concrete eager run with containment on a panicking
action still reports `true`. -/
theorem c5_eager_winner_witness :
    (true = true) ∧
    (Once.Do ⟨[Option.none], false, true, VerifyType.VerifyNone, false, false⟩).ret
      = Option.some true :=
  ⟨rfl, (c5_eager_winner [Option.none] true false).2.1 rfl⟩

/-- C7: `NewOnce` fails exactly when `lazyDone = false` is combined with a
policy other than `VerifyNone`; every successful construction starts with
`done = false`, `unblock = false` and the given configuration, and
`NewDefaultOnce` always succeeds. -/
theorem c7_construction (lz sp : Bool) (v : VerifyType) (f : ActRes) (fs : List ActRes) :
    ((∃ e, NewOnce lz sp v f fs = Except.error e) ↔
      (lz = false ∧ v ≠ VerifyType.VerifyNone)) ∧
    (∀ d, NewOnce lz sp v f fs = Except.ok d →
      d.done = false ∧ d.unblock = false ∧ d.fs = f :: fs ∧
      d.lazyDone = lz ∧ d.suppressPanic = sp ∧ d.verify = v) ∧
    (∃ d, NewDefaultOnce f fs = Except.ok d) := by
  by_cases h : lz = false ∧ v ≠ VerifyType.VerifyNone
  · refine ⟨⟨fun _ => h,
      fun _ => ⟨"lazyDone needs to true when using verify", by simp [NewOnce, h]⟩⟩,
      ?_, ⟨_, rfl⟩⟩
    intro d hd
    simp [NewOnce, h] at hd
  · refine ⟨⟨fun ⟨e, he⟩ => ?_, fun hc => absurd hc h⟩, ?_, ⟨_, rfl⟩⟩
    · simp [NewOnce, h] at he
    · intro d hd
      simp only [NewOnce, if_neg h, Except.ok.injEq] at hd
      subst hd
      exact ⟨rfl, rfl, rfl, rfl, rfl, rfl⟩

/-- Witness for C7: a successful construction at a concrete valid
configuration has cleared flags and the given configuration. -/
theorem c7_construction_witness :
    (⟨[Option.some true], true, false, VerifyType.VerifyAll, false, false⟩ : Once).done = false ∧
    (⟨[Option.some true], true, false, VerifyType.VerifyAll, false, false⟩ : Once).unblock = false ∧
    (⟨[Option.some true], true, false, VerifyType.VerifyAll, false, false⟩ : Once).fs
      = [Option.some true] ∧
    (⟨[Option.some true], true, false, VerifyType.VerifyAll, false, false⟩ : Once).lazyDone = true ∧
    (⟨[Option.some true], true, false, VerifyType.VerifyAll, false, false⟩ : Once).suppressPanic
      = false ∧
    (⟨[Option.some true], true, false, VerifyType.VerifyAll, false, false⟩ : Once).verify
      = VerifyType.VerifyAll :=
  (c7_construction true false VerifyType.VerifyAll (Option.some true) []).2.1
    ⟨[Option.some true], true, false, VerifyType.VerifyAll, false, false⟩ rfl

/-- C8: `Reset` clears both `done` and `unblock`, returns exactly the value
`done` held just before, and leaves the whole configuration (action list,
timing, policy, containment flag) unchanged. -/
theorem c8_reset (d : Once) :
    d.Reset.1 = d.done ∧ d.Reset.2.done = false ∧ d.Reset.2.unblock = false ∧
    d.Reset.2.fs = d.fs ∧ d.Reset.2.lazyDone = d.lazyDone ∧
    d.Reset.2.suppressPanic = d.suppressPanic ∧ d.Reset.2.verify = d.verify :=
  ⟨rfl, rfl, rfl, rfl, rfl, rfl, rfl⟩

/-- C10: under LAZY timing with containment and `VerifyFirstRunAll`, when
an action returning `true` precedes (panic-free) a panicking action, `Do`
returns `true` while `done` stays `false`: a `true` return from `Do` does
not imply the object was marked done. -/
theorem c10_true_then_panic (xs ys : List ActRes) (u : Bool)
    (hx : Option.none ∉ xs) (ht : Option.some true ∈ xs) :
    (Once.Do ⟨xs ++ Option.none :: ys, true, true,
        VerifyType.VerifyFirstRunAll, false, u⟩).ret = Option.some true ∧
    (Once.Do ⟨xs ++ Option.none :: ys, true, true,
        VerifyType.VerifyFirstRunAll, false, u⟩).after.done = false := by
  have hpan : (runFirstRunAll false (xs ++ Option.none :: ys)).panicked = true :=
    runFirstRunAll_panicked_of_mem false _ (by simp)
  have hres : (runFirstRunAll false (xs ++ Option.none :: ys)).res = true :=
    runFirstRunAll_res_true_of_prefix xs (Option.none :: ys) false hx ht
  constructor
  · simp [Once.Do, runVerify, hpan, hres]
  · simp [Once.Do, runVerify, hpan]

/-! ### C9: `done` is sticky for every operation except `Reset` -/

/-- One step of any non-`Reset` operation on a done object keeps `done` set,
and a `Do` step returns `false` without invoking anything. -/
lemma stepC_done_sticky (d : Once) (hd : d.done = true) (op : Op) :
    (stepC d op).2.done = true ∧
    (op = Op.opDo → (stepC d op).1 = OpOut.fromDo (Option.some false) 0) := by
  cases op with
  | opDo =>
    constructor
    · simp [stepC, Once.Do, hd]
    · intro _
      simp [stepC, Once.Do, hd]
  | opDone b =>
    exact ⟨hd, by intro h; cases h⟩
  | opClose =>
    constructor
    · simp [stepC, Once.Close, hd]
    · intro h; cases h

/-- C9: once `done` is `true`, every sequence of `Do`/`Done`/`Close` calls
(the non-`Reset` operations) leaves `done` set, and every `Do` call in the
sequence returns `false` and invokes no actions. -/
theorem c9_done_sticky (d : Once) (hd : d.done = true) (ops : List Op) :
    (runC d ops).2.done = true ∧
    (∀ i o, (runC d ops).1.get? i = Option.some o →
      ops.get? i = Option.some Op.opDo → o = OpOut.fromDo (Option.some false) 0) := by
  induction ops generalizing d with
  | nil =>
    refine ⟨hd, ?_⟩
    intro i o h1 _
    simp [runC] at h1
  | cons op t ih =>
    obtain ⟨hstep, hout⟩ := stepC_done_sticky d hd op
    obtain ⟨ih1, ih2⟩ := ih (stepC d op).2 hstep
    constructor
    · simpa [runC] using ih1
    · intro i o h1 h2
      cases i with
      | zero =>
        simp only [runC, List.get?_cons_zero, Option.some.injEq] at h1 h2
        rw [← h1]
        exact hout h2
      | succ j =>
        simp only [runC, List.get?_cons_succ] at h1 h2
        exact ih2 j o h1 h2

/-- Witness for C9: a concrete done object stays done across a `Do` call. -/
theorem c9_done_sticky_witness :
    (⟨[Option.some true], true, false, VerifyType.VerifyNone, true, false⟩ : Once).done = true ∧
    (runC ⟨[Option.some true], true, false, VerifyType.VerifyNone, true, false⟩
      [Op.opDo]).2.done = true :=
  ⟨rfl,
    (c9_done_sticky ⟨[Option.some true], true, false, VerifyType.VerifyNone, true, false⟩
      rfl [Op.opDo]).1⟩

/-! ### C3: the simplified variant versus LAZY + VerifyNone -/

/-- The simplified action loop on `n` non-panicking actions invokes all of
them without a panic. -/
lemma runFs_replicate (n : Nat) : Simple.runFs (List.replicate n false) = (n, false) := by
  induction n with
  | zero => rfl
  | succ k ih => simp [List.replicate_succ, Simple.runFs, ih]

/-- The `VerifyNone` loop on `n` constant-`true` actions invokes all of
them, no panic, result `true`. -/
lemma runNone_replicate (n : Nat) :
    runNone (List.replicate n (Option.some true)) = ⟨n, true, false⟩ := by
  induction n with
  | zero => rfl
  | succ k ih => simp [List.replicate_succ, runNone, ih]

/-- Coupled execution of the two variants on non-panicking actions: from
states agreeing on `done`/`unblock` (and with the canonical action lists)
every operation sequence yields the same outputs and the same flags. -/
lemma run_equiv_aux (n : Nat) (sp : Bool) (ops : List Op) (dn ub : Bool) :
    (runS ⟨List.replicate n false, sp, dn, ub⟩ ops).1
      = (runC ⟨List.replicate n (Option.some true), true, sp,
          VerifyType.VerifyNone, dn, ub⟩ ops).1 ∧
    (runS ⟨List.replicate n false, sp, dn, ub⟩ ops).2.done
      = (runC ⟨List.replicate n (Option.some true), true, sp,
          VerifyType.VerifyNone, dn, ub⟩ ops).2.done ∧
    (runS ⟨List.replicate n false, sp, dn, ub⟩ ops).2.unblock
      = (runC ⟨List.replicate n (Option.some true), true, sp,
          VerifyType.VerifyNone, dn, ub⟩ ops).2.unblock := by
  induction ops generalizing dn ub with
  | nil => exact ⟨rfl, rfl, rfl⟩
  | cons op t ih =>
    cases op with
    | opDo =>
      cases dn with
      | true =>
        obtain ⟨e1, e2, e3⟩ := ih true ub
        have hS : stepS ⟨List.replicate n false, sp, true, ub⟩ Op.opDo
            = (OpOut.fromDo (Option.some false) 0, ⟨List.replicate n false, sp, true, ub⟩) := by
          simp [stepS, Simple.Once.Do]
        have hC : stepC ⟨List.replicate n (Option.some true), true, sp,
              VerifyType.VerifyNone, true, ub⟩ Op.opDo
            = (OpOut.fromDo (Option.some false) 0,
               ⟨List.replicate n (Option.some true), true, sp,
                VerifyType.VerifyNone, true, ub⟩) := by
          simp [stepC, Once.Do]
        refine ⟨?_, ?_, ?_⟩
        · simp only [runS, runC, hS, hC]
          rw [e1]
        · simp only [runS, runC, hS, hC]
          exact e2
        · simp only [runS, runC, hS, hC]
          exact e3
      | false =>
        obtain ⟨e1, e2, e3⟩ := ih true ub
        have hS : stepS ⟨List.replicate n false, sp, false, ub⟩ Op.opDo
            = (OpOut.fromDo (Option.some true) n, ⟨List.replicate n false, sp, true, ub⟩) := by
          simp [stepS, Simple.Once.Do, runFs_replicate]
        have hC : stepC ⟨List.replicate n (Option.some true), true, sp,
              VerifyType.VerifyNone, false, ub⟩ Op.opDo
            = (OpOut.fromDo (Option.some true) n,
               ⟨List.replicate n (Option.some true), true, sp,
                VerifyType.VerifyNone, true, ub⟩) := by
          simp [stepC, Once.Do, runVerify, runNone_replicate]
        refine ⟨?_, ?_, ?_⟩
        · simp only [runS, runC, hS, hC]
          rw [e1]
        · simp only [runS, runC, hS, hC]
          exact e2
        · simp only [runS, runC, hS, hC]
          exact e3
    | opDone b =>
      obtain ⟨e1, e2, e3⟩ := ih dn ub
      have hS : stepS ⟨List.replicate n false, sp, dn, ub⟩ (Op.opDone b)
          = (OpOut.fromDone (if b && (!ub && !dn) then Option.none else Option.some dn),
             ⟨List.replicate n false, sp, dn, ub⟩) := by
        simp [stepS, Simple.Once.Done, Simple.Once.blocksOnDone]
      have hC : stepC ⟨List.replicate n (Option.some true), true, sp,
            VerifyType.VerifyNone, dn, ub⟩ (Op.opDone b)
          = (OpOut.fromDone (if b && (!ub && !dn) then Option.none else Option.some dn),
             ⟨List.replicate n (Option.some true), true, sp,
              VerifyType.VerifyNone, dn, ub⟩) := by
        simp [stepC, Once.Done, Once.blocksOnDone]
      refine ⟨?_, ?_, ?_⟩
      · simp only [runS, runC, hS, hC]
        rw [e1]
      · simp only [runS, runC, hS, hC]
        exact e2
      · simp only [runS, runC, hS, hC]
        exact e3
    | opClose =>
      obtain ⟨e1, e2, e3⟩ := ih dn true
      have hS : stepS ⟨List.replicate n false, sp, dn, ub⟩ Op.opClose
          = (OpOut.fromClose, ⟨List.replicate n false, sp, dn, true⟩) := by
        simp [stepS, Simple.Once.Close]
      have hC : stepC ⟨List.replicate n (Option.some true), true, sp,
            VerifyType.VerifyNone, dn, ub⟩ Op.opClose
          = (OpOut.fromClose,
             ⟨List.replicate n (Option.some true), true, sp,
              VerifyType.VerifyNone, dn, true⟩) := by
        simp [stepC, Once.Close]
      refine ⟨?_, ?_, ?_⟩
      · simp only [runS, runC, hS, hC]
        rw [e1]
      · simp only [runS, runC, hS, hC]
        exact e2
      · simp only [runS, runC, hS, hC]
        exact e3

/-- C3 counterexample: with one panicking action and containment on, the
simplified variant and the LAZY + `VerifyNone` configuration already give
different observable outputs on the call sequence `Do(); Done(false)` —
the simplified variant reports done, the configurable one does not. -/
theorem c3_counterexample :
    (runS ⟨[true], true, false, false⟩ [Op.opDo, Op.opDone false]).1 ≠
      (runC ⟨[Option.none], true, true, VerifyType.VerifyNone, false, false⟩
        [Op.opDo, Op.opDone false]).1 := by
  decide

/-- C3 amended: for action lists in which no action panics, the simplified
variant is behaviourally equivalent to the configurable Guard with LAZY
timing and the `VerifyNone` policy (same outputs for every `Do`/`Done`/
`Close` sequence, same `done`/`unblock` flags); with a panicking action the
two diverge, because the simplified variant marks `done` on every execution
while LAZY + `VerifyNone` leaves `done` clear after a panic. -/
theorem c3_nopanic_equivalence (n : Nat) (sp : Bool) (ops : List Op) :
    (runS ⟨List.replicate n false, sp, false, false⟩ ops).1
      = (runC ⟨List.replicate n (Option.some true), true, sp,
          VerifyType.VerifyNone, false, false⟩ ops).1 ∧
    (runS ⟨List.replicate n false, sp, false, false⟩ ops).2.done
      = (runC ⟨List.replicate n (Option.some true), true, sp,
          VerifyType.VerifyNone, false, false⟩ ops).2.done ∧
    (runS ⟨List.replicate n false, sp, false, false⟩ ops).2.unblock
      = (runC ⟨List.replicate n (Option.some true), true, sp,
          VerifyType.VerifyNone, false, false⟩ ops).2.unblock :=
  run_equiv_aux n sp ops false false

/-! ### C6: single winner under concurrent `Do` -/

/-- Pointwise description of an updated program-counter map. -/
lemma update_eq_iff {n : Nat} (pcs : Fin n → TPC) (i : Fin n) (v w : TPC) (j : Fin n) :
    Function.update pcs i v j = w ↔ ((j = i ∧ v = w) ∨ (j ≠ i ∧ pcs j = w)) := by
  by_cases hji : j = i
  · subst hji
    simp [Function.update_same]
  · simp [Function.update_noteq hji, hji]

/-- Updating a non-`running` entry to a non-`running` value does not change
which goroutines are at `running`. -/
lemma update_not_running {n : Nat} (pcs : Fin n → TPC) (i : Fin n) (v : TPC)
    (h1 : pcs i ≠ TPC.running) (h2 : v ≠ TPC.running) (j : Fin n) :
    Function.update pcs i v j = TPC.running ↔ pcs j = TPC.running := by
  by_cases hji : j = i
  · subst hji
    simp [Function.update_same, h1, h2]
  · simp [Function.update_noteq hji]

/-- The winner count is unchanged by an update that neither removes nor
adds a `finished true` entry. -/
lemma winners_update_other {n : Nat} (pcs : Fin n → TPC) (i : Fin n) (v : TPC)
    (hold : pcs i ≠ TPC.finished true) (hnew : v ≠ TPC.finished true) :
    winners (Function.update pcs i v) = winners pcs := by
  unfold winners
  apply Finset.sum_congr rfl
  intro j _
  by_cases hji : j = i
  · subst hji
    simp [Function.update_same, hold, hnew]
  · rw [Function.update_noteq hji]

/-- Moving one goroutine from a non-winning state to `finished true`
increments the winner count. -/
lemma winners_update_win {n : Nat} (pcs : Fin n → TPC) (i : Fin n)
    (hold : pcs i ≠ TPC.finished true) :
    winners (Function.update pcs i (TPC.finished true)) = winners pcs + 1 := by
  have key : ∀ g : Fin n → TPC, winners g =
      (Finset.univ.erase i).sum (fun j => if g j = TPC.finished true then 1 else 0)
        + (if g i = TPC.finished true then 1 else 0) :=
    fun g => (Finset.sum_erase_add Finset.univ _ (Finset.mem_univ i)).symm
  rw [key, key]
  have herase : (Finset.univ.erase i).sum
      (fun j => if Function.update pcs i (TPC.finished true) j = TPC.finished true then 1 else 0)
      = (Finset.univ.erase i).sum (fun j => if pcs j = TPC.finished true then 1 else 0) :=
    Finset.sum_congr rfl
      (fun j hj => by rw [Function.update_noteq (Finset.ne_of_mem_erase hj)])
  rw [herase, Function.update_same]
  simp [hold]

/-- A goroutine at `finished true` makes the winner count positive. -/
lemma winners_pos {n : Nat} (pcs : Fin n → TPC) (j : Fin n)
    (hj : pcs j = TPC.finished true) : 1 ≤ winners pcs := by
  unfold winners
  have h := Finset.single_le_sum
    (f := fun k => if pcs k = TPC.finished true then 1 else 0)
    (fun k _ => Nat.zero_le _) (Finset.mem_univ j)
  simpa [hj] using h

/-- The invariant carried along every interleaving: the mutex is held
exactly when some goroutine is in the critical section, at most one is,
a critical section runs only in a fresh epoch, `done` reflects a completed
or in-flight execution, the winner count equals the number of completed
executions (at most one), a `false` return is only possible after `done`
was observed set, and under eager timing `done` is already set while the
critical section runs. -/
structure RaceInv (lz : Bool) {n : Nat} (s : RaceState n) : Prop where
  lockIff : s.lock = true ↔ ∃ i, s.pcs i = TPC.running
  uniqueRun : ∀ i j, s.pcs i = TPC.running → s.pcs j = TPC.running → i = j
  runZero : ∀ i, s.pcs i = TPC.running → s.runs = 0
  runsDone : 1 ≤ s.runs → s.done = true
  doneSrc : s.done = true → 1 ≤ s.runs ∨ ∃ i, s.pcs i = TPC.running
  winEq : winners s.pcs = s.runs
  falseDone : ∀ i, s.pcs i = TPC.finished false → s.done = true
  eagerRun : lz = false → ∀ i, s.pcs i = TPC.running → s.done = true
  runsLe : s.runs ≤ 1

/-- The fresh object satisfies the invariant. -/
lemma raceInv_init (lz : Bool) (n : Nat) : RaceInv lz (initRace n) := by
  refine ⟨?_, ?_, ?_, ?_, ?_, ?_, ?_, ?_, ?_⟩
  · simp [initRace]
  · intro i j hi _
    cases hi
  · intro i hi
    cases hi
  · intro h
    exact absurd h (by simp [initRace])
  · intro h
    simp [initRace] at h
  · simp [winners, initRace]
  · intro i hi
    cases hi
  · intro _ i hi
    cases hi
  · simp [initRace]

/-- Every interleaving step preserves the invariant. -/
lemma raceInv_step (lz : Bool) {n : Nat} {s s' : RaceState n}
    (hs : RaceInv lz s) (hstep : RaceStep lz s s') : RaceInv lz s' := by
  cases hstep with
  | fastDone i hpc hd =>
    have hrun := update_not_running s.pcs i (TPC.finished false)
      (by rw [hpc]; simp) (by simp)
    refine ⟨?_, ?_, ?_, hs.runsDone, ?_, ?_, ?_, ?_, hs.runsLe⟩
    · simp only [hrun]
      exact hs.lockIff
    · intro j k hj hk
      rw [hrun] at hj hk
      exact hs.uniqueRun j k hj hk
    · intro j hj
      rw [hrun] at hj
      exact hs.runZero j hj
    · intro hdn
      simp only [hrun]
      exact hs.doneSrc hdn
    · rw [winners_update_other s.pcs i (TPC.finished false) (by rw [hpc]; simp) (by simp)]
      exact hs.winEq
    · intro j _
      exact hd
    · intro hlz j hj
      rw [hrun] at hj
      exact hs.eagerRun hlz j hj
  | fastPass i hpc hd =>
    have hrun := update_not_running s.pcs i TPC.waiting
      (by rw [hpc]; simp) (by simp)
    refine ⟨?_, ?_, ?_, hs.runsDone, ?_, ?_, ?_, ?_, hs.runsLe⟩
    · simp only [hrun]
      exact hs.lockIff
    · intro j k hj hk
      rw [hrun] at hj hk
      exact hs.uniqueRun j k hj hk
    · intro j hj
      rw [hrun] at hj
      exact hs.runZero j hj
    · intro hdn
      simp only [hrun]
      exact hs.doneSrc hdn
    · rw [winners_update_other s.pcs i TPC.waiting (by rw [hpc]; simp) (by simp)]
      exact hs.winEq
    · intro j hj
      rw [update_eq_iff] at hj
      rcases hj with ⟨_, hv⟩ | ⟨_, hj⟩
      · cases hv
      · exact hs.falseDone j hj
    · intro hlz j hj
      rw [hrun] at hj
      exact hs.eagerRun hlz j hj
  | lockDone i hpc hl hd =>
    have hrun := update_not_running s.pcs i (TPC.finished false)
      (by rw [hpc]; simp) (by simp)
    refine ⟨?_, ?_, ?_, hs.runsDone, ?_, ?_, ?_, ?_, hs.runsLe⟩
    · simp only [hrun]
      exact hs.lockIff
    · intro j k hj hk
      rw [hrun] at hj hk
      exact hs.uniqueRun j k hj hk
    · intro j hj
      rw [hrun] at hj
      exact hs.runZero j hj
    · intro hdn
      simp only [hrun]
      exact hs.doneSrc hdn
    · rw [winners_update_other s.pcs i (TPC.finished false) (by rw [hpc]; simp) (by simp)]
      exact hs.winEq
    · intro j _
      exact hd
    · intro hlz j hj
      rw [hrun] at hj
      exact hs.eagerRun hlz j hj
  | lockRun i hpc hl hd =>
    have hnorun : ∀ j, s.pcs j ≠ TPC.running := by
      intro j hj
      have hlock := hs.lockIff.mpr ⟨j, hj⟩
      rw [hl] at hlock
      cases hlock
    have hruns0 : s.runs = 0 := by
      rcases Nat.eq_zero_or_pos s.runs with h | h
      · exact h
      · have hdn := hs.runsDone h
        rw [hd] at hdn
        cases hdn
    have hrun' : ∀ j, Function.update s.pcs i TPC.running j = TPC.running ↔ j = i := by
      intro j
      rw [update_eq_iff]
      constructor
      · rintro (⟨hji, _⟩ | ⟨_, hj⟩)
        · exact hji
        · exact absurd hj (hnorun j)
      · intro hji
        exact Or.inl ⟨hji, rfl⟩
    refine ⟨?_, ?_, ?_, ?_, ?_, ?_, ?_, ?_, hs.runsLe⟩
    · constructor
      · intro _
        exact ⟨i, (hrun' i).mpr rfl⟩
      · intro _
        rfl
    · intro j k hj hk
      rw [hrun'] at hj hk
      rw [hj, hk]
    · intro j _
      exact hruns0
    · intro h
      rw [hruns0] at h
      exact absurd h (by omega)
    · intro _
      exact Or.inr ⟨i, (hrun' i).mpr rfl⟩
    · rw [winners_update_other s.pcs i TPC.running (by rw [hpc]; simp) (by simp)]
      exact hs.winEq
    · intro j hj
      rw [update_eq_iff] at hj
      rcases hj with ⟨_, hv⟩ | ⟨_, hj⟩
      · cases hv
      · have hdn := hs.falseDone j hj
        rw [hd] at hdn
        cases hdn
    · intro hlz j _
      simp [hlz]
  | runExit i hpc =>
    have hone : ∀ j, s.pcs j = TPC.running → j = i := fun j hj => hs.uniqueRun j i hj hpc
    have hnorun' : ∀ j, Function.update s.pcs i (TPC.finished true) j ≠ TPC.running := by
      intro j hj
      rw [update_eq_iff] at hj
      rcases hj with ⟨_, hv⟩ | ⟨hji, hj⟩
      · cases hv
      · exact hji (hone j hj)
    have hruns0 : s.runs = 0 := hs.runZero i hpc
    have hdone' : (if lz then true else s.done) = true := by
      cases lz with
      | true => rfl
      | false => simpa using hs.eagerRun rfl i hpc
    refine ⟨?_, ?_, ?_, ?_, ?_, ?_, ?_, ?_, ?_⟩
    · constructor
      · intro h
        cases h
      · rintro ⟨j, hj⟩
        exact absurd hj (hnorun' j)
    · intro j k hj _
      exact absurd hj (hnorun' j)
    · intro j hj
      exact absurd hj (hnorun' j)
    · intro _
      exact hdone'
    · intro _
      exact Or.inl (Nat.succ_le_succ (Nat.zero_le _))
    · rw [winners_update_win s.pcs i (by rw [hpc]; simp), hs.winEq]
    · intro j hj
      rw [update_eq_iff] at hj
      rcases hj with ⟨_, hv⟩ | ⟨_, hj⟩
      · cases hv
      · have hdn := hs.falseDone j hj
        cases lz with
        | true => rfl
        | false => simpa using hdn
    · intro _ j hj
      exact absurd hj (hnorun' j)
    · show s.runs + 1 ≤ 1
      omega

/-- The invariant holds in every reachable state. -/
lemma raceInv_reach (lz : Bool) (n : Nat) (s : RaceState n) (h : RaceReach lz n s) :
    RaceInv lz s := by
  induction h with
  | refl => exact raceInv_init lz n
  | tail _ hstep ih => exact raceInv_step lz ih hstep

/-- A finished goroutine is not running. -/
lemma finished_not_running {n : Nat} (s : RaceState n)
    (hfin : ∀ i, ∃ b, s.pcs i = TPC.finished b) : ∀ j, s.pcs j ≠ TPC.running := by
  intro j hj
  obtain ⟨b, hb⟩ := hfin j
  rw [hb] at hj
  cases hj

/-- The `VerifyNone` loop over non-panicking actions never panics. -/
lemma runNone_map_some_nopanic (bs : List Bool) :
    (runNone (bs.map Option.some)).panicked = false := by
  induction bs with
  | nil => rfl
  | cons b t ih => simpa [runNone] using ih

/-- C6: for `n` goroutines racing through `Do` on a fresh object under
either EAGER + `VerifyNone` or LAZY + `VerifyNone` (parameter `lz`), once
all of them have returned, exactly one returned `true`, all others
returned `false`, and the action list was executed exactly once — one
execution of the `VerifyNone` loop invoking each (non-panicking) action
exactly once, in order. -/
theorem c6_single_winner (lz : Bool) (n : Nat) (hn : 0 < n) (s : RaceState n)
    (hreach : RaceReach lz n s) (hfin : ∀ i, ∃ b, s.pcs i = TPC.finished b) :
    winners s.pcs = 1 ∧ s.runs = 1 ∧
    (∀ bs : List Bool,
      (runVerify VerifyType.VerifyNone (bs.map Option.some)).invoked = bs.length) := by
  have hinv := raceInv_reach lz n s hreach
  have hnorun := finished_not_running s hfin
  have hruns : s.runs = 1 := by
    obtain ⟨b, hb⟩ := hfin ⟨0, hn⟩
    cases b with
    | true =>
      have hw := winners_pos s.pcs ⟨0, hn⟩ hb
      have hweq := hinv.winEq
      have hle := hinv.runsLe
      omega
    | false =>
      have hdn := hinv.falseDone ⟨0, hn⟩ hb
      rcases hinv.doneSrc hdn with h | ⟨j, hj⟩
      · have hle := hinv.runsLe
        omega
      · exact absurd hj (hnorun j)
  refine ⟨by rw [hinv.winEq, hruns], hruns, ?_⟩
  intro bs
  simpa [runVerify] using
    runNone_nopanic_invoked (bs.map Option.some) (runNone_map_some_nopanic bs)

/-- First intermediate state of the witness interleaving: the single
goroutine has passed the fast path. -/
def raceW1 : RaceState 1 :=
  { done := false, lock := false,
    pcs := Function.update (fun _ => TPC.start) 0 TPC.waiting, runs := 0 }

/-- Second intermediate state: the goroutine holds the mutex (eager timing,
`done` stored at entry). -/
def raceW2 : RaceState 1 :=
  { done := true, lock := true,
    pcs := Function.update (Function.update (fun _ => TPC.start) 0 TPC.waiting) 0
      TPC.running,
    runs := 0 }

/-- Final state of the witness interleaving: the goroutine returned `true`
after one execution of the action list. -/
def raceW3 : RaceState 1 :=
  { done := true, lock := false,
    pcs := Function.update (Function.update (Function.update (fun _ => TPC.start) 0
      TPC.waiting) 0 TPC.running) 0 (TPC.finished true),
    runs := 1 }

/-- Witness for C6: a concrete complete interleaving of one goroutine under
eager timing reaches a final state with one winner and one execution. -/
theorem c6_single_winner_witness :
    (0 < 1) ∧ winners raceW3.pcs = 1 ∧ raceW3.runs = 1 := by
  have hreach : RaceReach false 1 raceW3 :=
    Relation.ReflTransGen.tail (Relation.ReflTransGen.tail
      (Relation.ReflTransGen.single (RaceStep.fastPass (initRace 1) 0 rfl rfl))
      (RaceStep.lockRun raceW1 0 (by simp [raceW1]) rfl rfl))
      (RaceStep.runExit raceW2 0 (by simp [raceW2]))
  have hfin : ∀ i : Fin 1, ∃ b, raceW3.pcs i = TPC.finished b := by
    intro i
    refine ⟨true, ?_⟩
    have hi : i = 0 := Subsingleton.elim i 0
    rw [hi]
    simp [raceW3]
  have h := c6_single_winner false 1 (by decide) raceW3 hreach hfin
  exact ⟨by decide, h.1, h.2.1⟩

/-- Witness for C10: `[f1 -> true, f2 -> panic]` with containment returns
`true` with `done` still `false`. -/
theorem c10_true_then_panic_witness :
    (Option.none ∉ [Option.some true]) ∧
    (Once.Do ⟨[Option.some true] ++ Option.none :: [], true, true,
        VerifyType.VerifyFirstRunAll, false, false⟩).ret = Option.some true :=
  ⟨by decide, (c10_true_then_panic [Option.some true] [] false (by decide) (by decide)).1⟩

end Sync
